import Mathlib

/-!
Verification of the async-hwi hardware-wallet core (bitbox.rs / ledger.rs).

Shallow embedding of the two source files of the repository:

* `src/bitbox.rs` — the descriptor parser `extract_script_config_policy`
  (regex scan for key expressions, key-origin parsing, deduplication,
  placeholder substitution, checksum stripping) and `BitBox::register_wallet`.
* `src/ledger.rs` — `Ledger::sign_tx` (signature reconciliation into a PSBT),
  `Ledger::is_wallet_registered`, `Ledger::register_wallet`,
  `Ledger::display_address`, and the `From<BitcoinClientError>` conversion.

Strings are `List Char`; external collaborators (the vendor device sessions,
the ledger-side policy parser `utils::extract_keys_and_template`, and
`ExtendedPubKey::from_str` of the bitcoin crate) are modelled at their
boundary, mostly as explicit function parameters, so every theorem quantifies
over their behaviour.
-/

/-- Character strings, as in the Rust source (`&str` / `String`). -/
abbrev Str := List Char

/-- Coerce a Lean string literal to the `Str` model. -/
def strL (s : String) : Str := s.data

/-! ## The error taxonomy -/

/-- Modelled from the spec: error taxonomy of §7 (`crate::Error`, declared
outside `src/`): `InvalidParameter(field, reason)`, `DeviceNotFound`,
`Device(message)`, `UserRefused`, `MissingPolicy`, `DeviceDidNotSign`,
`UnimplementedMethod`. -/
inductive HWIError where
  | InvalidParameter (field : Str) (reason : Str)
  | DeviceNotFound
  | Device (message : Str)
  | UserRefused
  | MissingPolicy
  | DeviceDidNotSign
  | UnimplementedMethod
deriving DecidableEq

/-! ## The key-expression regex of `extract_script_config_policy`

`src/bitbox.rs:132` compiles
`((\[.+?\])?[xyYzZtuUvV]pub[1-9A-HJ-NP-Za-km-z]{79,108})` and iterates its
non-overlapping leftmost matches over the policy string.  The matcher below
implements exactly that pattern with the regex crate's leftmost-first
semantics: at a position starting with `[` the optional origin group is tried
with the lazily shortest bracket first (later `]` candidates on backtracking),
then the version character, the literal `pub`, and a greedy run of 79 to 108
base58 characters. -/

/-- The regex class `[1-9A-HJ-NP-Za-km-z]` (base58). -/
def isBase58 (c : Char) : Bool :=
  (('1' ≤ c && c ≤ '9') || ('A' ≤ c && c ≤ 'Z' && c ≠ 'I' && c ≠ 'O')
    || ('a' ≤ c && c ≤ 'z' && c ≠ 'l'))

/-- The regex class `[xyYzZtuUvV]` of extended-key version characters. -/
def isXpubVersion (c : Char) : Bool :=
  c = 'x' || c = 'y' || c = 'Y' || c = 'z' || c = 'Z' || c = 't'
    || c = 'u' || c = 'U' || c = 'v' || c = 'V'

/-- Length of the maximal base58 run at the head of the string. -/
def base58RunLen : Str → Nat
  | [] => 0
  | c :: cs => if isBase58 c then base58RunLen cs + 1 else 0

/-- Match length of `[xyYzZtuUvV]pub[1-9A-HJ-NP-Za-km-z]{79,108}` at the head
of the string: the version character, the literal `pub`, then greedily at most
108 and at least 79 base58 characters. -/
def xpubLen (u : Str) : Option Nat :=
  match u with
  | v :: p :: q :: b :: rest =>
      if isXpubVersion v && (p == 'p') && (q == 'u') && (b == 'b') then
        let c := base58RunLen rest
        if 79 ≤ c then some (4 + min c 108) else none
      else none
  | _ => none

/-- Scan for the end of the lazy origin group `\[.+?\]` directly after its
`[`, with the rest of the pattern required to match after the `]`:
the first closing `]` with at least one preceding content character (any
character but a newline; an unusable `]` is itself consumed as content, as a
backtracking engine would) after which an extended-key expression matches.
Returns the match length counted from the current position (content, `]`, and
the key expression). -/
def bracketScan : Str → Bool → Option Nat
  | [], _ => none
  | c :: cs, seen =>
      if c = '\n' then none
      else if c = ']' && seen then
        match xpubLen cs with
        | some m => some (1 + m)
        | none => (bracketScan cs true).map (· + 1)
      else (bracketScan cs true).map (· + 1)

/-- Match length of the whole key-expression regex at the head of the
string. -/
def matchLenAt (u : Str) : Option Nat :=
  match u with
  | [] => none
  | c :: cs =>
      if c = '[' then
        match bracketScan cs false with
        | some m => some (m + 1)
        | none => xpubLen u
      else xpubLen u

/-- Non-overlapping leftmost matches (the `find_iter` loop): the `skip`
counter consumes the remainder of the match just emitted. -/
def scanAux : Str → Nat → List Str
  | [], _ => []
  | _ :: cs, skip + 1 => scanAux cs skip
  | c :: cs, 0 =>
      match matchLenAt (c :: cs) with
      | some n => (c :: cs).take n :: scanAux cs (n - 1)
      | none => scanAux cs 0

/-- All matched key expressions of a policy string, in match order
(`re.find_iter(policy)` of `src/bitbox.rs:135`). -/
def scanCaptures (u : Str) : List Str := scanAux u 0

/-! ## String helpers used by the parser -/

/-- `str::replace`: replace every non-overlapping occurrence of `pat`
left-to-right (the `skip` counter consumes a replaced occurrence).  Defined
for the nonempty patterns the parser uses; for an empty pattern it returns
the text unchanged where Rust would interleave the replacement. -/
def replaceAux (pat rep : Str) : Str → Nat → Str
  | [], _ => []
  | _ :: cs, skip + 1 => replaceAux pat rep cs skip
  | c :: cs, 0 =>
      if pat.isPrefixOf (c :: cs) && !pat.isEmpty then
        rep ++ replaceAux pat rep cs (pat.length - 1)
      else c :: replaceAux pat rep cs 0

/-- `text.replace(pat, rep)` of Rust. -/
def replaceAll (t pat rep : Str) : Str := replaceAux pat rep t 0

/-- `str::rsplit_once(c)`: split at the last occurrence of `c`. -/
def rsplitOnce (c : Char) : Str → Option (Str × Str)
  | [] => none
  | x :: xs =>
      match rsplitOnce c xs with
      | some (a, b) => some (x :: a, b)
      | none => if x = c then some ([], xs) else none

/-- `str::split_once(c)`: split at the first occurrence of `c`. -/
def splitOnce (c : Char) : Str → Option (Str × Str)
  | [] => none
  | x :: xs =>
      if x = c then some ([], xs)
      else
        match splitOnce c xs with
        | some (a, b) => some (x :: a, b)
        | none => none

/-- `str::strip_prefix('[')`. -/
def stripBracketHead : Str → Option Str
  | '[' :: cs => some cs
  | _ => none

/-- Decimal digit character. -/
def digitChar (d : Nat) : Char :=
  if d = 0 then '0' else if d = 1 then '1' else if d = 2 then '2'
  else if d = 3 then '3' else if d = 4 then '4' else if d = 5 then '5'
  else if d = 6 then '6' else if d = 7 then '7' else if d = 8 then '8'
  else '9'

/-- Decimal digits of a positive number (fuelled by the number itself). -/
def natDigitsAux : Nat → Nat → Str
  | 0, _ => []
  | _ + 1, 0 => []
  | fuel + 1, n + 1 =>
      natDigitsAux fuel ((n + 1) / 10) ++ [digitChar ((n + 1) % 10)]

/-- Decimal rendering of a natural number (`format!("{}", n)`). -/
def natToStr (n : Nat) : Str :=
  if n = 0 then ['0'] else natDigitsAux (n + 1) n

/-- The placeholder `format!("@{}", index)` of `src/bitbox.rs:175`. -/
def placeholder (index : Nat) : Str := '@' :: natToStr index

/-! ## BIP32 key material (boundary models of the bitcoin crate) -/

/-- An extended public key, carried by its base58 text.  The structure of the
value is opaque to the code under verification: it is produced by the external
`ExtendedPubKey::from_str` and only compared for equality. -/
structure Xpub where
  text : Str
deriving DecidableEq

/-- A child number of a BIP32 derivation path. -/
inductive ChildNumber where
  | normal (index : Nat)
  | hardened (index : Nat)
deriving DecidableEq

/-- A BIP32 derivation path (`DerivationPath::master()` is `[]`). -/
abbrev DerivationPath := List ChildNumber

/-- Raw `u32` of a child number (`Keypath` elements; `ChildNumber::into()`). -/
def ChildNumber.raw : ChildNumber → Nat
  | .normal i => i
  | .hardened i => i + 2 ^ 31

/-- `bitbox_api::Keypath::from(&DerivationPath)`: the raw `u32` sequence. -/
def toKeypath (p : DerivationPath) : List Nat := p.map ChildNumber.raw

/-- A master fingerprint, 4 bytes as a number below `2^32`. -/
abbrev Fingerprint := Nat

/-- Value of a hexadecimal digit (case-insensitive), by code point. -/
def hexVal (c : Char) : Option Nat :=
  let n := c.toNat
  if 48 ≤ n ∧ n ≤ 57 then some (n - 48)
  else if 97 ≤ n ∧ n ≤ 102 then some (n - 87)
  else if 65 ≤ n ∧ n ≤ 70 then some (n - 55)
  else none

/-- Fold hexadecimal digits into a value. -/
def hexFold : Str → Nat → Option Nat
  | [], acc => some acc
  | c :: cs, acc =>
      match hexVal c with
      | some d => hexFold cs (acc * 16 + d)
      | none => none

/-- Model of rust-bitcoin `Fingerprint::from_str` at its boundary: exactly 8
hexadecimal digits decoding to the 4-byte value. -/
def Fingerprint.fromStr (s : Str) : Option Fingerprint :=
  if s.length = 8 then hexFold s 0 else none

/-- All-decimal-digit check, by code point. -/
def allDigits : Str → Bool
  | [] => true
  | c :: cs => (48 ≤ c.toNat && c.toNat ≤ 57) && allDigits cs

/-- Fold decimal digits into a value, by code point. -/
def decFold : Str → Nat → Nat
  | [], acc => acc
  | c :: cs, acc => decFold cs (acc * 10 + (c.toNat - 48))

/-- Model of rust-bitcoin child-index parsing at its boundary: a nonempty
decimal numeral whose value is below `2^31`. -/
def parseU31 (s : Str) : Option Nat :=
  if s ≠ [] && allDigits s && decFold s 0 < 2 ^ 31 then some (decFold s 0)
  else none

/-- Model of rust-bitcoin `ChildNumber` parsing at its boundary: a child
index, hardened when suffixed by `'`, `h` or `H`. -/
def parseChild (comp : Str) : Option ChildNumber :=
  match comp.getLast? with
  | none => none
  | some c =>
      if c = '\'' || c = 'h' || c = 'H' then
        (parseU31 comp.dropLast).map ChildNumber.hardened
      else (parseU31 comp).map ChildNumber.normal

/-- Split on every occurrence of a separator character. -/
def splitOnAux (c : Char) : Str → Str → List Str
  | [], acc => [acc.reverse]
  | x :: xs, acc =>
      if x = c then acc.reverse :: splitOnAux c xs []
      else splitOnAux c xs (x :: acc)

/-- `str::split(c)` collected into a list. -/
def splitOn (c : Char) (s : Str) : List Str := splitOnAux c s []

/-- Model of rust-bitcoin `DerivationPath::from_str` at its boundary, for the
`"m/…"` strings the parser builds: `m` followed by `/`-separated child
numbers. -/
def DerivationPath.fromStr (s : Str) : Option DerivationPath :=
  match splitOn '/' s with
  | m :: comps => if m = ['m'] then comps.mapM parseChild else none
  | [] => none

/-! ## The descriptor parser of `src/bitbox.rs` -/

/-- `bitbox_api::btc::KeyOriginInfo` (equality on all fields is the
deduplication identity). -/
structure KeyOriginInfo where
  keypath : Option (List Nat)
  root_fingerprint : Option Fingerprint
  xpub : Xpub
deriving DecidableEq

/-- The policy script config produced by
`bitbox_api::btc::make_script_config_policy(template, keys)`. -/
structure BtcScriptConfig where
  template : Str
  pubkeys : List KeyOriginInfo
deriving DecidableEq

/-- The external `ExtendedPubKey::from_str` of the bitcoin crate, passed in
as a collaborator: `none` models `Err`, `some` models `Ok`. -/
abbrev XpubFromStr := Str → Option Xpub

/-- The per-capture body of the `find_iter` loop of
`extract_script_config_policy` (`src/bitbox.rs:136-171`): a bare capture that
parses as an extended key carries no origin metadata; otherwise the capture is
split as `[fingerprint(/path)?]xpub(/multipath)?`, the multipath being split
off and discarded. -/
def parseCapture (fromStr : XpubFromStr) (capture : Str) :
    Except HWIError KeyOriginInfo :=
  match fromStr capture with
  | some key => .ok ⟨none, none, key⟩
  | none =>
      match stripBracketHead capture >>= rsplitOnce ']' with
      | none =>
          .error (.InvalidParameter (strL ("policy")) (strL ("Invalid key source")))
      | some (keysource_str, xpub_str) =>
          let fp := match splitOnce '/' keysource_str with
                    | some (f, p) => (f, p)
                    | none => (keysource_str, [])
          match Fingerprint.fromStr fp.1 with
          | none =>
              .error (.InvalidParameter (strL ("policy")) (strL ("bad fingerprint")))
          | some fingerprint =>
              let derivation_path : Option DerivationPath :=
                if fp.2 = [] then some []
                else DerivationPath.fromStr ('m' :: '/' :: fp.2)
              match derivation_path with
              | none =>
                  .error (.InvalidParameter (strL ("policy")) (strL ("bad path")))
              | some path =>
                  let xm := match rsplitOnce '/' xpub_str with
                            | some (x, mp) => (x, some ('/' :: mp))
                            | none => (xpub_str, (none : Option Str))
                  match fromStr xm.1 with
                  | none =>
                      .error (.InvalidParameter (strL ("policy")) (strL ("bad xpub")))
                  | some key =>
                      .ok ⟨some (toKeypath path), some fingerprint, key⟩

/-- The `for (index, capture) in re.find_iter(policy).enumerate()` loop
(`src/bitbox.rs:135-176`): parse the capture, push the key origin if it is not
yet in the list, and replace every occurrence of the capture text in the
template with `@index` — the running match index, exactly as the source does
it. -/
def extractLoop (fromStr : XpubFromStr) :
    Nat → List Str → Str → List KeyOriginInfo →
    Except HWIError (Str × List KeyOriginInfo)
  | _, [], templ, keys => .ok (templ, keys)
  | index, capture :: caps, templ, keys =>
      match parseCapture fromStr capture with
      | .error e => .error e
      | .ok pubkey =>
          let keys' := if keys.contains pubkey then keys else keys ++ [pubkey]
          extractLoop fromStr (index + 1) caps
            (replaceAll templ capture (placeholder index)) keys'

/-- `extract_script_config_policy` (`src/bitbox.rs:131-189`): scan the policy
for key expressions, run the substitution loop starting from the original
text, then drop everything from the last `#` (the checksum) before building
the script config. -/
def extract_script_config_policy (fromStr : XpubFromStr) (policy : Str) :
    Except HWIError BtcScriptConfig :=
  match extractLoop fromStr 0 (scanCaptures policy) policy [] with
  | .error e => .error e
  | .ok (descriptor_template, pubkeys) =>
      let template :=
        match rsplitOnce '#' descriptor_template with
        | some (t, _hash) => t
        | none => descriptor_template
      .ok ⟨template, pubkeys⟩

/-! ## The ledger client boundary (`ledger_bitcoin_client`) -/

/-- Model of the external `StatusWord` at its boundary: the `Deny` code the
conversion layer singles out, and the other codes. -/
inductive StatusWord where
  | Deny
  | OK
  | Unknown
  | Other (code : Nat)
deriving DecidableEq

/-- Model of the external `BitcoinClientError` at its boundary: the
`Device { command, status }` variant inspected by the conversion layer and
the remaining opaque variants. -/
inductive BitcoinClientError where
  | Transport (message : Str)
  | InvalidResponse (message : Str)
  | Device (command : Nat) (status : StatusWord)
  | UnexpectedResult (command : Nat) (data : Str)
deriving DecidableEq

/-- A concrete stand-in for `format!("{:#?}", e)`: some textual rendering of
the client error; the conversion layer treats it as opaque. -/
def debugFmt (e : BitcoinClientError) : Str :=
  match e with
  | .Transport m => strL ("Transport ") ++ m
  | .InvalidResponse m => strL ("InvalidResponse ") ++ m
  | .Device c s =>
      strL ("Device ") ++ natToStr c ++
        (match s with
         | .Deny => strL (" Deny")
         | .OK => strL (" OK")
         | .Unknown => strL (" Unknown")
         | .Other code => strL (" ") ++ natToStr code)
  | .UnexpectedResult c d => strL ("UnexpectedResult ") ++ natToStr c ++ d

/-- `impl From<BitcoinClientError<T>> for HWIError` (`src/ledger.rs:296-305`):
a `Device` error whose status is `Deny` becomes `UserRefused`; everything else
falls through to `Device(format!("{:#?}", e))`. -/
def hwiFromClientError (e : BitcoinClientError) : HWIError :=
  let refused : Option HWIError :=
    match e with
    | .Device _ status => if status = .Deny then some .UserRefused else none
    | _ => none
  match refused with
  | some r => r
  | none => .Device (debugFmt e)

/-! ## Wallet policies and the command options of `Ledger` -/

/-- A key of the ledger wallet-policy key vector
(`ledger_bitcoin_client::WalletPubKey`): opaque to `src/ledger.rs`, which only
stores and compares it. -/
abbrev WalletPubKey := Nat

/-- `ledger_bitcoin_client::wallet::Version`. -/
inductive WalletVersion where
  | V1
  | V2
deriving DecidableEq

/-- `ledger_bitcoin_client::WalletPolicy` (`WalletPolicy::new` stores the four
fields). -/
structure WalletPolicy where
  name : Str
  version : WalletVersion
  descriptor_template : Str
  keys : List WalletPubKey
deriving DecidableEq

/-- A 32-byte registration proof (`[u8; 32]` HMAC), opaque. -/
abbrev Hmac := Nat

/-- `CommandOptions` (`src/ledger.rs:29-33`). -/
structure CommandOptions where
  wallet : Option (WalletPolicy × Option Hmac)
  display_xpub : Bool
deriving DecidableEq

/-- The ledger-side policy parser `utils::extract_keys_and_template`
(repository code outside `src/`), passed in as a collaborator returning the
descriptor template and key vector, or an error. -/
abbrev ExtractKeysFn := Str → Except HWIError (Str × List WalletPubKey)

/-! ## The PSBT model (`bitcoin::psbt`) -/

/-- An ECDSA signature, opaque. -/
abbrev EcdsaSig := Nat

/-- A schnorr signature, opaque. -/
abbrev SchnorrSig := Nat

/-- A legacy/segwit public key, opaque. -/
abbrev PubKey := Nat

/-- An x-only taproot public key, opaque. -/
abbrev XOnlyKey := Nat

/-- A taproot leaf hash, opaque. -/
abbrev TapLeafHash := Nat

/-- Ordered-map insert (`BTreeMap::insert`): replace the binding of the key in
place, or append a new binding.  The association list is the extensional model
of the map. -/
def mapInsert {α β : Type} [DecidableEq α] :
    List (α × β) → α → β → List (α × β)
  | [], k, v => [(k, v)]
  | (k', v') :: rest, k, v =>
      if k' = k then (k, v) :: rest else (k', v') :: mapInsert rest k v

/-- Ordered-map lookup. -/
def mapLookup {α β : Type} [DecidableEq α] : List (α × β) → α → Option β
  | [], _ => none
  | (k', v') :: rest, k => if k' = k then some v' else mapLookup rest k

/-- One PSBT input: the keyed partial-signature map, the taproot script-path
signature map keyed by `(x-only key, leaf hash)`, and the single taproot
key-path signature slot. -/
structure PsbtInput where
  partial_sigs : List (PubKey × EcdsaSig)
  tap_script_sigs : List ((XOnlyKey × TapLeafHash) × SchnorrSig)
  tap_key_sig : Option SchnorrSig
deriving DecidableEq

/-- A partially-signed transaction: its input array. -/
structure Psbt where
  inputs : List PsbtInput
deriving DecidableEq

/-- `ledger_bitcoin_client::psbt::PartialSignature`: a plain signature keyed
by public key, or a taproot signature whose optional leaf hash distinguishes
script-path from key-path. -/
inductive PartialSignature where
  | Sig (key : PubKey) (sig : EcdsaSig)
  | TapScriptSig (key : XOnlyKey) (leaf : Option TapLeafHash) (sig : SchnorrSig)
deriving DecidableEq

/-- The per-record merge of the `sign_tx` loop body (`src/ledger.rs:169-179`):
branch on the signature variant and upsert into the corresponding structure of
the input. -/
def applySig (input : PsbtInput) (sig : PartialSignature) : PsbtInput :=
  match sig with
  | .Sig key s => { input with partial_sigs := mapInsert input.partial_sigs key s }
  | .TapScriptSig key (some tapleaf_hash) s =>
      { input with tap_script_sigs := mapInsert input.tap_script_sigs (key, tapleaf_hash) s }
  | .TapScriptSig _ none s => { input with tap_key_sig := some s }

/-- Apply one in-range record to the transaction; out of range leaves it
unchanged (the loop instead aborts there). -/
def applyRecord (psbt : Psbt) (r : Nat × PartialSignature) : Psbt :=
  match psbt.inputs.get? r.1 with
  | some input => ⟨psbt.inputs.set r.1 (applySig input r.2)⟩
  | none => psbt

/-- The `for (i, sig) in sigs` loop of `sign_tx` (`src/ledger.rs:167-180`):
resolve each record's input index with `psbt.inputs.get_mut(i)`, failing with
`DeviceDidNotSign` when it is out of range and keeping the merges already
applied; otherwise merge and continue.  Returns the final transaction and the
error, if any. -/
def mergeSigs : Psbt → List (Nat × PartialSignature) → Psbt × Option HWIError
  | psbt, [] => (psbt, none)
  | psbt, (i, sig) :: rest =>
      match psbt.inputs.get? i with
      | none => (psbt, some .DeviceDidNotSign)
      | some input => mergeSigs ⟨psbt.inputs.set i (applySig input sig)⟩ rest

/-- The device's signing assistant `BitcoinClient::sign_psbt`, an external
collaborator: its result for a given transaction, policy and proof. -/
structure SignDevice where
  sign_psbt : Psbt → WalletPolicy → Option Hmac →
    Except BitcoinClientError (List (Nat × PartialSignature))

/-- One recorded `sign_psbt` exchange with the device. -/
abbrev SignCall := Psbt × WalletPolicy × Option Hmac

/-- `Ledger::sign_tx` (`src/ledger.rs:164-186`): with an attached wallet
policy, ask the device to sign and merge the returned records; without one,
fail with `UnimplementedMethod` ("Ledger cannot sign without policy").
Returns the call result, the final state of the `&mut Psbt`, and the list of
device signing exchanges performed. -/
def Ledger.sign_tx (dev : SignDevice) (opts : CommandOptions) (psbt : Psbt) :
    Except HWIError Unit × Psbt × List SignCall :=
  match opts.wallet with
  | some (policy, hmac) =>
      match dev.sign_psbt psbt policy hmac with
      | .error e => (.error (hwiFromClientError e), psbt, [(psbt, policy, hmac)])
      | .ok sigs =>
          match mergeSigs psbt sigs with
          | (psbt2, none) => (.ok (), psbt2, [(psbt, policy, hmac)])
          | (psbt2, some err) => (.error err, psbt2, [(psbt, policy, hmac)])
  | none => (.error .UnimplementedMethod, psbt, [])

/-! ## `is_wallet_registered` and `register_wallet` of `Ledger` -/

/-- `Ledger::is_wallet_registered` (`src/ledger.rs:151-162`): with no stored
wallet the answer is `false` outright; with one, parse the candidate policy
and compare proof presence, name, template and key list.  The embedding takes
no device collaborator: the check is local by construction. -/
def Ledger.is_wallet_registered (parse : ExtractKeysFn) (opts : CommandOptions)
    (name : Str) (policy : Str) : Except HWIError Bool :=
  match opts.wallet with
  | some (wallet, hmac) =>
      match parse policy with
      | .error e => .error e
      | .ok (descriptor_template, keys) =>
          .ok (hmac.isSome && decide (name = wallet.name)
            && decide (descriptor_template = wallet.descriptor_template)
            && decide (keys = wallet.keys))
  | none => .ok false

/-- The device's `BitcoinClient::register_wallet`, an external collaborator
returning the policy id and the 32-byte proof. -/
structure RegisterDevice where
  register_wallet : WalletPolicy → Except BitcoinClientError (Nat × Hmac)

/-- `Ledger::register_wallet` (`src/ledger.rs:135-149`): parse the policy,
build the V2 wallet policy, register it with the device, and return the
proof; client errors convert through `hwiFromClientError`. -/
def Ledger.register_wallet (parse : ExtractKeysFn) (dev : RegisterDevice)
    (name : Str) (policy : Str) : Except HWIError (Option Hmac) :=
  match parse policy with
  | .error e => .error e
  | .ok (descriptor_template, keys) =>
      match dev.register_wallet ⟨name, .V2, descriptor_template, keys⟩ with
      | .error e => .error (hwiFromClientError e)
      | .ok (_id, hmac) => .ok (some hmac)

/-! ## `display_address` of `Ledger` -/

/-- `crate::AddressScript` (declared outside `src/`; constructors as used by
`src/ledger.rs:95-131`): a single-signer taproot path, or an index/change pair
against the attached policy. -/
inductive AddressScript where
  | P2TR (path : DerivationPath)
  | Miniscript (index : Nat) (change : Bool)
deriving DecidableEq

/-- One recorded `get_wallet_address` exchange with the device, with the
display flag the call passed. -/
structure AddressCall where
  policy : WalletPolicy
  hmac : Option Hmac
  change : Bool
  index : Nat
  display : Bool
deriving DecidableEq

/-- The device collaborator used by `display_address`: root fingerprint query,
extended-key export (with the display flag of the options), and the wallet
address request. -/
structure LedgerClient where
  get_master_fingerprint : Unit → Except BitcoinClientError Fingerprint
  get_extended_pubkey : DerivationPath → Bool → Except BitcoinClientError Xpub
  get_wallet_address : WalletPolicy → Option Hmac → Bool → Nat → Bool →
    Except BitcoinClientError Str

/-- Modelled from the spec: `utils::bip86_path_child_numbers` (repository code
outside `src/`) accepts exactly a three-component hardened prefix followed by
exactly two normal components, and fails with `InvalidParameter` on any other
shape. -/
def bip86_path_child_numbers (path : DerivationPath) :
    Except HWIError (List ChildNumber) :=
  match path with
  | [.hardened a, .hardened b, .hardened c, .normal d, .normal e] =>
      .ok [.hardened a, .hardened b, .hardened c, .normal d, .normal e]
  | _ => .error (.InvalidParameter (strL ("path")) (strL ("not a bip86 path")))

/-- Hexadecimal digit character (lower case). -/
def hexDigitChar (d : Nat) : Char :=
  if d < 10 then digitChar d
  else if d = 10 then 'a' else if d = 11 then 'b' else if d = 12 then 'c'
  else if d = 13 then 'd' else if d = 14 then 'e' else 'f'

/-- Lower-case 8-digit hexadecimal rendering of a fingerprint (`Display` of
rust-bitcoin `Fingerprint`). -/
def hex8 (n : Nat) : Str :=
  [hexDigitChar (n / 16 ^ 7 % 16), hexDigitChar (n / 16 ^ 6 % 16),
   hexDigitChar (n / 16 ^ 5 % 16), hexDigitChar (n / 16 ^ 4 % 16),
   hexDigitChar (n / 16 ^ 3 % 16), hexDigitChar (n / 16 ^ 2 % 16),
   hexDigitChar (n / 16 % 16), hexDigitChar (n % 16)]

/-- Textual child number (`Display` of rust-bitcoin `ChildNumber`). -/
def childToStr : ChildNumber → Str
  | .normal i => natToStr i
  | .hardened i => natToStr i ++ ['\'']

/-- `path.to_string().trim_start_matches('m')` of `src/ledger.rs:105`: the
`/`-separated components of the path, each preceded by `/`. -/
def pathToStrTrimmed (p : DerivationPath) : Str :=
  (p.map (fun c => '/' :: childToStr c)).flatten

/-- The policy text `format!("tr([{}{}]{}/**)", fg, path, xpub)` of
`src/ledger.rs:102-107`. -/
def formatTrPolicy (fg : Fingerprint) (path : DerivationPath) (xpub : Xpub) :
    Str :=
  strL ("tr([") ++ hex8 fg ++ pathToStrTrimmed path ++ [']'] ++ xpub.text
    ++ strL ("/**)")

/-- Raw `u32` of `normal_children[1].into()`; the `none` case is unreachable
(the bip86 shape guarantees two trailing components) where Rust would panic on
the index. -/
def childRawOpt : Option ChildNumber → Nat
  | some c => c.raw
  | none => 0

/-- `Ledger::display_address` (`src/ledger.rs:94-133`).  `P2TR`: validate the
bip86 shape, split off the three hardened components, fetch fingerprint and
account key from the device, synthesize the `tr(...)` policy, compile it with
the ledger-side parser, and request the wallet address with display enabled;
`Miniscript`: require the attached policy (else `MissingPolicy`) and request
the address with display enabled.  Returns the result and the recorded
address exchanges. -/
def Ledger.display_address (parse : ExtractKeysFn) (client : LedgerClient)
    (opts : CommandOptions) (script : AddressScript) :
    Except HWIError Unit × List AddressCall :=
  match script with
  | .P2TR path =>
      match bip86_path_child_numbers path with
      | .error e => (.error e, [])
      | .ok children =>
          let hardened_children := children.take 3
          let normal_children := children.drop 3
          match client.get_master_fingerprint () with
          | .error e => (.error (hwiFromClientError e), [])
          | .ok fg =>
              match client.get_extended_pubkey hardened_children opts.display_xpub with
              | .error e => (.error (hwiFromClientError e), [])
              | .ok xpub =>
                  let policy := formatTrPolicy fg hardened_children xpub
                  match parse policy with
                  | .error e => (.error e, [])
                  | .ok (descriptor_template, keys) =>
                      let wallet : WalletPolicy :=
                        ⟨[], .V2, descriptor_template, keys⟩
                      let change :=
                        decide (normal_children.get? 0 = some (.normal 0))
                      let index := childRawOpt (normal_children.get? 1)
                      let call : AddressCall := ⟨wallet, none, change, index, true⟩
                      match client.get_wallet_address wallet none change index true with
                      | .error e => (.error (hwiFromClientError e), [call])
                      | .ok _ => (.ok (), [call])
  | .Miniscript index change =>
      match opts.wallet with
      | none => (.error .MissingPolicy, [])
      | some (policy, hmac) =>
          let call : AddressCall := ⟨policy, hmac, change, index, true⟩
          match client.get_wallet_address policy hmac change index true with
          | .error e => (.error (hwiFromClientError e), [call])
          | .ok _ => (.ok (), [call])

/-! ## `BitBox::register_wallet` of `src/bitbox.rs` -/

/-- `bitcoin::Network` as used by the BitBox backend. -/
inductive Network where
  | Bitcoin
  | Testnet
  | Signet
  | Regtest
deriving DecidableEq

/-- `pb::BtcCoin`. -/
inductive BtcCoin where
  | Btc
  | Tbtc
deriving DecidableEq

/-- `pb::btc_register_script_config_request::XPubType`. -/
inductive BbXPubType where
  | AutoXpubTpub
deriving DecidableEq

/-- The configurable fields of the `BitBox` backend. -/
structure BitBoxState where
  network : Network
  display_xpub : Bool
deriving DecidableEq

/-- Modelled from the spec: the `keypath_account` argument of
`btc_register_script_config` — an account keypath whose definition is not in
`src/`; its value is irrelevant to the claims. -/
def keypath_account : List Nat := []

/-- The BitBox device collaborator for wallet registration
(`btc_register_script_config`). -/
structure BitBoxClient where
  btc_register_script_config : BtcCoin → BtcScriptConfig → List Nat →
    BbXPubType → Option Str → Except Str Unit

/-- Outcome of a Rust call that may panic (`.unwrap()` on an `Err`). -/
inductive RustOutcome (α : Type) where
  | panicked
  | returns (value : α)
deriving DecidableEq

/-- `BitBox::register_wallet` (`src/bitbox.rs:97-118`): compile the policy,
send the registration to the device with `.unwrap()` — panicking on any
device failure — and then return `Err(UnimplementedMethod)` even after a
successful exchange. -/
def BitBox.register_wallet (fromStr : XpubFromStr) (client : BitBoxClient)
    (self : BitBoxState) (name : Str) (policy : Str) :
    RustOutcome (Except HWIError (Option Hmac)) :=
  match extract_script_config_policy fromStr policy with
  | .error e => .returns (.error e)
  | .ok cfg =>
      match client.btc_register_script_config
          (if self.network = .Bitcoin then .Btc else .Tbtc) cfg
          keypath_account .AutoXpubTpub (some name) with
      | .error _ => .panicked
      | .ok _ => .returns (.error .UnimplementedMethod)

/-! ## Map lemmas for the signature reconciler -/

theorem mapLookup_insert_self {α β : Type} [DecidableEq α]
    (m : List (α × β)) (k : α) (v : β) :
    mapLookup (mapInsert m k v) k = some v := by
  induction m with
  | nil => simp [mapInsert, mapLookup]
  | cons kv rest ih =>
      obtain ⟨k', v'⟩ := kv
      by_cases h : k' = k
      · subst h; simp [mapInsert, mapLookup]
      · simp [mapInsert, mapLookup, h, ih]

theorem mapLookup_insert_ne {α β : Type} [DecidableEq α]
    (m : List (α × β)) (k k₀ : α) (v : β) (h : k₀ ≠ k) :
    mapLookup (mapInsert m k v) k₀ = mapLookup m k₀ := by
  have hk₀ : ¬ k = k₀ := fun e => h e.symm
  induction m with
  | nil => simp [mapInsert, mapLookup, hk₀]
  | cons kv rest ih =>
      obtain ⟨k', v'⟩ := kv
      by_cases hk : k' = k
      · subst hk; simp [mapInsert, mapLookup, hk₀]
      · by_cases hk0 : k' = k₀
        · subst hk0; simp [mapInsert, mapLookup, hk]
        · simp [mapInsert, mapLookup, hk, hk0, ih]

theorem mapInsert_overwrite {α β : Type} [DecidableEq α]
    (m : List (α × β)) (k : α) (v₁ v₂ : β) :
    mapInsert (mapInsert m k v₁) k v₂ = mapInsert m k v₂ := by
  induction m with
  | nil => simp [mapInsert]
  | cons kv rest ih =>
      obtain ⟨k', v'⟩ := kv
      by_cases h : k' = k
      · subst h; simp [mapInsert]
      · simp [mapInsert, h, ih]

/-! ## Concrete material used by counterexamples and witnesses -/

/-- A well-formed extended public key literal (the BIP32 test-vector master
key): 4-character version prefix and a 107-character base58 body. -/
def xpubLit : String :=
  "xpub661MyMwAqRbcFtXgS5sYJABqqG9YLmC4Q1Rdap9gSE8NqtwybGhePY2gZ29ESFjqJoCu1Rupje8YtGqsefD265TMg7usUDFdp6W1EGMcet8"

/-- A concrete instance of the external `ExtendedPubKey::from_str`, adequate
for the inputs the counterexamples exercise: it accepts exactly the
well-formed bare key literal (a bracketed capture is not base58 and is
rejected, as the real decoder does). -/
def fromStrCex : XpubFromStr :=
  fun s => if s = xpubLit.data then some ⟨s⟩ else none

/-- A policy in which one key-origin expression occurs twice before a second,
distinct key-origin expression (same xpub under another fingerprint). -/
def c1policy : String :=
  "wsh(multi(2,[aaaa0000]" ++ xpubLit ++ ",[aaaa0000]" ++ xpubLit ++
    ",[bbbb1111]" ++ xpubLit ++ "))"

/-- An empty-maps one-input transaction. -/
def psbtOneInput : Psbt := ⟨[⟨[], [], none⟩]⟩

/-- A signing device that returns no signature records. -/
def devNull : SignDevice := ⟨fun _ _ _ => .ok []⟩

/-- Options with no attached wallet policy. -/
def optsNone : CommandOptions := ⟨none, false⟩

/-- A stored wallet policy. -/
def wallet0 : WalletPolicy := ⟨strL ("w"), .V2, strL ("tpl"), [1, 2]⟩

/-- Options with `wallet0` attached together with a registration proof. -/
def optsW : CommandOptions := ⟨some (wallet0, some 7), false⟩

/-- A parser that compiles every candidate to `wallet0`'s template and
keys. -/
def parseW : ExtractKeysFn := fun _ => .ok (strL ("tpl"), [1, 2])

/-! ## C1 -/

set_option maxRecDepth 8000 in
set_option maxHeartbeats 1000000 in
/-- C1: the claim fails on the code, which is a slip against the documented
deduplication contract: `extract_script_config_policy` substitutes the
match-enumeration counter, not the deduplicated key-list index.  On a policy
whose first key occurs twice before a second distinct key, the result is the
template `wsh(multi(2,@0,@0,@2))` over a two-entry key list — the placeholder
`@2` is out of range and `@1` never appears, violating "placeholders are
exactly `@0..@(N-1)`". -/
theorem c1_placeholder_uses_match_index :
    extract_script_config_policy fromStrCex (strL c1policy) =
      .ok ⟨strL "wsh(multi(2,@0,@0,@2))",
        [⟨some [], some 2863267840, ⟨strL xpubLit⟩⟩,
         ⟨some [], some 3149598993, ⟨strL xpubLit⟩⟩]⟩ := by
  rfl

/-! ## C2 -/

/-- C2 counterexample: on a session with no attached wallet policy,
`sign_tx` does not fail with `MissingPolicy` — it fails with
`UnimplementedMethod`. -/
theorem c2_sign_without_policy_not_missing_policy :
    (Ledger.sign_tx devNull optsNone psbtOneInput).1 = .error .UnimplementedMethod
      ∧ (Ledger.sign_tx devNull optsNone psbtOneInput).1 ≠ .error .MissingPolicy := by
  refine ⟨rfl, ?_⟩
  intro h
  exact HWIError.noConfusion (Except.error.inj h)

/-- C2 amended: when `sign_tx` is called on a session that has no previously
attached wallet policy, the call fails with `UnimplementedMethod` (not
`MissingPolicy`), the transaction is left unchanged and is not sent to the
device (no signing exchange is recorded). -/
theorem c2_sign_without_policy_unimplemented (dev : SignDevice)
    (opts : CommandOptions) (psbt : Psbt) (h : opts.wallet = none) :
    Ledger.sign_tx dev opts psbt = (.error .UnimplementedMethod, psbt, []) := by
  unfold Ledger.sign_tx
  rw [h]

theorem c2_sign_without_policy_unimplemented_witness :
    optsNone.wallet = none ∧
      Ledger.sign_tx devNull optsNone psbtOneInput =
        (.error .UnimplementedMethod, psbtOneInput, []) :=
  ⟨rfl, c2_sign_without_policy_unimplemented devNull optsNone psbtOneInput rfl⟩

/-! ## C10 -/

/-- C10: with no wallet policy attached, `is_wallet_registered` answers
`Ok(false)` for every candidate policy and every behaviour of the ledger-side
parser — in particular for a parser that would reject the candidate with
`InvalidParameter`: the candidate is never parsed. -/
theorem c10_no_stored_wallet_skips_parsing (parse : ExtractKeysFn) (dx : Bool)
    (name policy : Str) :
    Ledger.is_wallet_registered parse ⟨none, dx⟩ name policy = .ok false := rfl

/-! ## C5 -/

/-- C5: `is_wallet_registered` answers `Ok(true)` exactly when a wallet
policy is attached to the session, its registration proof is present, and the
stored name, descriptor template and key list are field-wise equal to the
candidate name and the parsed candidate policy.  The embedding takes no
device collaborator: the check cannot perform device I/O. -/
theorem c5_is_wallet_registered_iff (parse : ExtractKeysFn)
    (opts : CommandOptions) (name policy : Str) :
    Ledger.is_wallet_registered parse opts name policy = .ok true ↔
      ∃ wallet hmac, opts.wallet = some (wallet, hmac) ∧ hmac.isSome = true ∧
        name = wallet.name ∧
        parse policy = .ok (wallet.descriptor_template, wallet.keys) := by
  cases hw : opts.wallet with
  | none => simp [Ledger.is_wallet_registered, hw]
  | some p =>
      obtain ⟨wallet, hmac⟩ := p
      cases hp : parse policy with
      | error e => simp [Ledger.is_wallet_registered, hw, hp]
      | ok tk =>
          obtain ⟨t, k⟩ := tk
          simp only [Ledger.is_wallet_registered, hw, hp, Except.ok.injEq,
            Option.some.injEq, Prod.mk.injEq, Bool.and_eq_true,
            decide_eq_true_eq]
          constructor
          · rintro ⟨⟨⟨hh, hn⟩, ht⟩, hk⟩
            exact ⟨wallet, hmac, ⟨rfl, rfl⟩, hh, hn, ht, hk⟩
          · rintro ⟨w', h', ⟨hw', hh'⟩, hs, hn, ht, hk⟩
            subst hw'; subst hh'
            exact ⟨⟨⟨hs, hn⟩, ht⟩, hk⟩

theorem c5_is_wallet_registered_iff_witness :
    Ledger.is_wallet_registered parseW optsW (strL ("w")) (strL ("p")) = .ok true :=
  (c5_is_wallet_registered_iff parseW optsW (strL ("w")) (strL ("p"))).mpr
    ⟨wallet0, some 7, rfl, rfl, rfl, rfl⟩

/-! ## C7 -/

/-- C7: the error-conversion layer maps a device error to `UserRefused`
exactly when it is a `Device` status-word error carrying the denied code, and
maps every other device error to a generic `Device(message)` error. -/
theorem c7_deny_maps_to_user_refused (e : BitcoinClientError) :
    (hwiFromClientError e = .UserRefused ↔ ∃ c, e = .Device c .Deny) ∧
      ((¬ ∃ c, e = .Device c .Deny) →
        ∃ m, hwiFromClientError e = .Device m) := by
  cases e with
  | Device c st => cases st <;> simp [hwiFromClientError]
  | Transport m => simp [hwiFromClientError]
  | InvalidResponse m => simp [hwiFromClientError]
  | UnexpectedResult c d => simp [hwiFromClientError]

theorem c7_deny_maps_to_user_refused_witness :
    hwiFromClientError (.Device 0 .Deny) = .UserRefused ∧
      ∃ m, hwiFromClientError (.Transport []) = .Device m :=
  ⟨(c7_deny_maps_to_user_refused (.Device 0 .Deny)).1.mpr ⟨0, rfl⟩,
   (c7_deny_maps_to_user_refused (.Transport [])).2 (by simp)⟩

/-! ## C6 -/

/-- A BitBox device that accepts every registration. -/
def clientBBOk : BitBoxClient := ⟨fun _ _ _ _ _ => .ok ()⟩

/-- A BitBox device whose registration exchange fails at the transport. -/
def clientBBErr : BitBoxClient :=
  ⟨fun _ _ _ _ _ => .error (strL ("transport failure"))⟩

/-- A mainnet BitBox backend. -/
def bbMain : BitBoxState := ⟨.Bitcoin, false⟩

/-- A single-key policy accepted by the descriptor parser. -/
def c6policy : String := "tr([aaaa0000]" ++ xpubLit ++ ")"

set_option maxRecDepth 8000 in
set_option maxHeartbeats 1000000 in
/-- C6: the claim is the intended contract and the BitBox implementation
contradicts it: after a successful device exchange `BitBox::register_wallet`
returns `Err(UnimplementedMethod)` instead of the registration proof, and on
a transport/protocol failure it panics (`.unwrap()`) instead of failing with
`Device(error)`. -/
theorem c6_bitbox_register_never_returns_proof :
    BitBox.register_wallet fromStrCex clientBBOk bbMain (strL ("w"))
        (strL c6policy) = .returns (.error .UnimplementedMethod) ∧
      BitBox.register_wallet fromStrCex clientBBErr bbMain (strL ("w"))
        (strL c6policy) = .panicked := by
  exact ⟨rfl, rfl⟩

/-! ## C4 -/

/-- C4: the merge step of `sign_tx` upserts a plain signature under its
public key (two plain signatures under distinct keys on the same input are
both retained), upserts a taproot script-path signature under
`(key, leaf hash)` (a repeat with the same key leaves exactly the state of
the last insert), overwrites the single key-path slot, and re-applying any
identical record leaves the input unchanged. -/
theorem c4_merge_upsert_semantics (input : PsbtInput) (pkA pkB : PubKey)
    (sA sB : EcdsaSig) (hAB : pkA ≠ pkB) (xk : XOnlyKey) (leaf : TapLeafHash)
    (t₁ t₂ ks : SchnorrSig) (r : PartialSignature) :
    (mapLookup (applySig (applySig input (.Sig pkA sA)) (.Sig pkB sB)).partial_sigs
          pkA = some sA ∧
        mapLookup (applySig (applySig input (.Sig pkA sA)) (.Sig pkB sB)).partial_sigs
          pkB = some sB) ∧
      applySig (applySig input (.TapScriptSig xk (some leaf) t₁))
          (.TapScriptSig xk (some leaf) t₂)
        = applySig input (.TapScriptSig xk (some leaf) t₂) ∧
      (applySig input (.TapScriptSig xk none ks)).tap_key_sig = some ks ∧
      applySig (applySig input r) r = applySig input r := by
  refine ⟨⟨?_, ?_⟩, ?_, ?_, ?_⟩
  · simp [applySig, mapLookup_insert_ne _ _ _ _ hAB, mapLookup_insert_self]
  · simp [applySig, mapLookup_insert_self]
  · simp [applySig, mapInsert_overwrite]
  · simp [applySig]
  · cases r with
    | Sig k s => simp [applySig, mapInsert_overwrite]
    | TapScriptSig k leaf' s =>
        cases leaf' with
        | some lh => simp [applySig, mapInsert_overwrite]
        | none => simp [applySig]

theorem c4_merge_upsert_semantics_witness :
    (mapLookup (applySig (applySig ⟨[], [], none⟩ (.Sig 0 10)) (.Sig 1 11)).partial_sigs
          0 = some 10 ∧
        mapLookup (applySig (applySig ⟨[], [], none⟩ (.Sig 0 10)) (.Sig 1 11)).partial_sigs
          1 = some 11) ∧
      applySig (applySig ⟨[], [], none⟩ (.TapScriptSig 2 (some 3) 12))
          (.TapScriptSig 2 (some 3) 13)
        = applySig ⟨[], [], none⟩ (.TapScriptSig 2 (some 3) 13) ∧
      (applySig ⟨[], [], none⟩ (.TapScriptSig 2 none 14)).tap_key_sig = some 14 ∧
      applySig (applySig ⟨[], [], none⟩ (.Sig 0 10)) (.Sig 0 10)
        = applySig ⟨[], [], none⟩ (.Sig 0 10) :=
  c4_merge_upsert_semantics ⟨[], [], none⟩ 0 1 10 11 (by decide) 2 3 12 13 14
    (.Sig 0 10)

/-! ## C3 -/

theorem applyRecord_length (psbt : Psbt) (r : Nat × PartialSignature) :
    (applyRecord psbt r).inputs.length = psbt.inputs.length := by
  unfold applyRecord
  cases h : psbt.inputs.get? r.1 <;> simp

theorem mergeSigs_cons (psbt : Psbt) (i : Nat) (sig : PartialSignature)
    (rest : List (Nat × PartialSignature)) :
    mergeSigs psbt ((i, sig) :: rest) =
      match psbt.inputs.get? i with
      | none => (psbt, some .DeviceDidNotSign)
      | some input => mergeSigs ⟨psbt.inputs.set i (applySig input sig)⟩ rest := rfl

/-- With a record out of range somewhere in the list, the merge loop fails
with `DeviceDidNotSign` and the final transaction is the fold of the records
strictly before the first out-of-range one. -/
theorem mergeSigs_out_of_range (n : Nat) :
    ∀ (sigs : List (Nat × PartialSignature)) (psbt : Psbt),
      psbt.inputs.length = n → (∃ p ∈ sigs, n ≤ p.1) →
      mergeSigs psbt sigs =
        ((sigs.takeWhile (fun p => decide (p.1 < n))).foldl applyRecord psbt,
         some .DeviceDidNotSign) := by
  intro sigs
  induction sigs with
  | nil => intro psbt _ hoob; simp at hoob
  | cons p rest ih =>
      obtain ⟨i, sig⟩ := p
      intro psbt hlen hoob
      by_cases hi : i < n
      · obtain ⟨input, hget⟩ : ∃ input, psbt.inputs.get? i = some input := by
          rw [List.get?_eq_getElem?]
          have hlt : i < psbt.inputs.length := by omega
          exact ⟨psbt.inputs.get ⟨i, hlt⟩, List.getElem?_eq_getElem hlt⟩
        have hrest : ∃ p ∈ rest, n ≤ p.1 := by
          rcases hoob with ⟨q, hq, hnq⟩
          rcases List.mem_cons.mp hq with hq | hq
          · subst hq; omega
          · exact ⟨q, hq, hnq⟩
        have hstep : applyRecord psbt (i, sig) =
            ⟨psbt.inputs.set i (applySig input sig)⟩ := by
          unfold applyRecord; rw [hget]
        have hlen' : (Psbt.mk (psbt.inputs.set i (applySig input sig))).inputs.length = n := by
          simpa using hlen
        calc mergeSigs psbt ((i, sig) :: rest)
            = mergeSigs ⟨psbt.inputs.set i (applySig input sig)⟩ rest := by
              simp only [mergeSigs_cons, hget]
          _ = ((rest.takeWhile (fun p => decide (p.1 < n))).foldl applyRecord
                ⟨psbt.inputs.set i (applySig input sig)⟩,
               some .DeviceDidNotSign) := ih _ hlen' hrest
          _ = ((((i, sig) :: rest).takeWhile (fun p => decide (p.1 < n))).foldl
                applyRecord psbt, some .DeviceDidNotSign) := by
              rw [List.takeWhile_cons_of_pos (by simpa using hi), List.foldl_cons,
                hstep]
      · have hget : psbt.inputs.get? i = none := by
          rw [List.get?_eq_getElem?]
          exact List.getElem?_eq_none (by omega)
        have hfail : mergeSigs psbt ((i, sig) :: rest) =
            (psbt, some .DeviceDidNotSign) := by
          simp only [mergeSigs_cons, hget]
        rw [hfail, List.takeWhile_cons_of_neg (by simpa using hi)]
        simp

/-- C3: if any record returned by one signing exchange carries an input index
at or beyond the transaction's input count, `sign_tx` fails with
`DeviceDidNotSign`; the merges of the records strictly before the first
out-of-range one remain applied (no rollback), and the failing record alters
no input: the final transaction is exactly the fold of that prefix. -/
theorem c3_out_of_range_record_fails (dev : SignDevice)
    (opts : CommandOptions) (policy : WalletPolicy) (hmac : Option Hmac)
    (psbt : Psbt) (sigs : List (Nat × PartialSignature))
    (hw : opts.wallet = some (policy, hmac))
    (hdev : dev.sign_psbt psbt policy hmac = .ok sigs)
    (hoob : ∃ p ∈ sigs, psbt.inputs.length ≤ p.1) :
    Ledger.sign_tx dev opts psbt =
      (.error .DeviceDidNotSign,
       (sigs.takeWhile (fun p => decide (p.1 < psbt.inputs.length))).foldl
         applyRecord psbt,
       [(psbt, policy, hmac)]) := by
  simp only [Ledger.sign_tx, hw, hdev,
    mergeSigs_out_of_range psbt.inputs.length sigs psbt rfl hoob]

/-- A device returning one in-range and one out-of-range record. -/
def devOutOfRange : SignDevice :=
  ⟨fun _ _ _ => .ok [(0, .TapScriptSig 5 none 9), (3, .Sig 1 2)]⟩

theorem c3_out_of_range_record_fails_witness :
    optsW.wallet = some (wallet0, some 7) ∧
      devOutOfRange.sign_psbt psbtOneInput wallet0 (some 7) =
        .ok [(0, .TapScriptSig 5 none 9), (3, .Sig 1 2)] ∧
      (∃ p ∈ [((0 : Nat), PartialSignature.TapScriptSig 5 none 9), (3, .Sig 1 2)],
        psbtOneInput.inputs.length ≤ p.1) ∧
      Ledger.sign_tx devOutOfRange optsW psbtOneInput =
        (.error .DeviceDidNotSign,
         ([((0 : Nat), PartialSignature.TapScriptSig 5 none 9),
            (3, .Sig 1 2)].takeWhile
            (fun p => decide (p.1 < psbtOneInput.inputs.length))).foldl
           applyRecord psbtOneInput,
         [(psbtOneInput, wallet0, some 7)]) :=
  ⟨rfl, rfl, ⟨(3, .Sig 1 2), by decide, by decide⟩,
   c3_out_of_range_record_fails devOutOfRange optsW wallet0 (some 7)
     psbtOneInput _ rfl rfl ⟨(3, .Sig 1 2), by decide, by decide⟩⟩

/-! ## C8 -/

/-- C8: every `get_wallet_address` request that `display_address` issues — in
the `P2TR` single-signer taproot branch as well as the `Miniscript` policy
branch, and regardless of the device's answers — carries `display = true`;
no address is ever requested with display disabled. -/
theorem c8_display_always_enabled (parse : ExtractKeysFn)
    (client : LedgerClient) (opts : CommandOptions) (script : AddressScript) :
    ∀ call ∈ (Ledger.display_address parse client opts script).2,
      call.display = true := by
  intro call hc
  cases script with
  | P2TR path =>
      simp only [Ledger.display_address] at hc
      cases hb : bip86_path_child_numbers path with
      | error e => simp only [hb] at hc; simp at hc
      | ok children =>
          simp only [hb] at hc
          cases hf : client.get_master_fingerprint () with
          | error e => simp only [hf] at hc; simp at hc
          | ok fg =>
              simp only [hf] at hc
              cases hx : client.get_extended_pubkey (children.take 3)
                  opts.display_xpub with
              | error e => simp only [hx] at hc; simp at hc
              | ok xpub =>
                  simp only [hx] at hc
                  cases hp : parse (formatTrPolicy fg (children.take 3) xpub) with
                  | error e => simp only [hp] at hc; simp at hc
                  | ok tk =>
                      obtain ⟨t, keys⟩ := tk
                      simp only [hp] at hc
                      cases ha : client.get_wallet_address
                          ⟨[], .V2, t, keys⟩ none
                          (decide ((children.drop 3).get? 0 = some (.normal 0)))
                          (childRawOpt ((children.drop 3).get? 1)) true with
                      | error e =>
                          simp only [ha] at hc
                          simp at hc
                          subst hc; rfl
                      | ok a =>
                          simp only [ha] at hc
                          simp at hc
                          subst hc; rfl
  | Miniscript index change =>
      simp only [Ledger.display_address] at hc
      cases hw : opts.wallet with
      | none => simp only [hw] at hc; simp at hc
      | some p =>
          obtain ⟨policy, hmac⟩ := p
          simp only [hw] at hc
          cases ha : client.get_wallet_address policy hmac change index true with
          | error e => simp only [ha] at hc; simp at hc; subst hc; rfl
          | ok a => simp only [ha] at hc; simp at hc; subst hc; rfl

/-- A device answering every request. -/
def clientOk : LedgerClient :=
  ⟨fun _ => .ok 0, fun _ _ => .ok ⟨[]⟩, fun _ _ _ _ _ => .ok []⟩

theorem c8_display_always_enabled_witness :
    (⟨wallet0, some 7, true, 4, true⟩ : AddressCall) ∈
        (Ledger.display_address parseW clientOk optsW (.Miniscript 4 true)).2 ∧
      (⟨wallet0, some 7, true, 4, true⟩ : AddressCall).display = true :=
  ⟨by decide,
   c8_display_always_enabled parseW clientOk optsW (.Miniscript 4 true)
     ⟨wallet0, some 7, true, 4, true⟩ (by decide)⟩

/-! ## C9: checksum stripping

The claim quantifies over descriptor bodies and checksum suffixes.  A body is
a policy text with no `#` (the `#` is the checksum delimiter); a checksum
suffix is a string over the 32-character descriptor-checksum alphabet.  The
development shows the regex scan, the substitution loop and the final
`rsplit_once('#')` all treat the appended `#checksum` as inert, so parsing
`B` and parsing `B#checksum` produce identical script configs. -/

/-- The descriptor-checksum alphabet (the bech32 character set). -/
def checksumChars : Str := strL ("qpzry9x8gf2tvdw0s3jn54khce6mua7l")

theorem checksumChar_facts {c : Char} (h : c ∈ checksumChars) :
    c ≠ '\n' ∧ c ≠ ']' ∧ c ≠ '[' ∧ c ≠ 'b' ∧ c ≠ '#' := by
  refine ⟨?_, ?_, ?_, ?_, ?_⟩ <;> (intro e; subst e; revert h; decide)

theorem isBase58_hash : isBase58 '#' = false := by decide

theorem isXpubVersion_hash : isXpubVersion '#' = false := by decide

theorem base58RunLen_append (s : Str) :
    ∀ u : Str, base58RunLen (u ++ '#' :: s) = base58RunLen u := by
  intro u
  induction u with
  | nil =>
      show base58RunLen ('#' :: s) = 0
      simp [base58RunLen, isBase58_hash]
  | cons c cs ih =>
      show base58RunLen (c :: (cs ++ '#' :: s)) = base58RunLen (c :: cs)
      simp only [base58RunLen, ih]

theorem xpubLen_append (s : Str) :
    ∀ u : Str, xpubLen (u ++ '#' :: s) = xpubLen u
  | [] => by
      match s with
      | [] => rfl
      | [x] => rfl
      | [x, y] => rfl
      | x :: y :: z :: s3 =>
          show xpubLen ('#' :: x :: y :: z :: s3) = none
          simp [xpubLen, isXpubVersion_hash]
  | [a] => by
      match s with
      | [] => rfl
      | [x] => rfl
      | x :: y :: s2 =>
          show xpubLen (a :: '#' :: x :: y :: s2) = xpubLen [a]
          have hp : (('#' : Char) == 'p') = false := by decide
          simp [xpubLen, hp]
  | [a, b] => by
      match s with
      | [] => rfl
      | x :: s1 =>
          show xpubLen (a :: b :: '#' :: x :: s1) = xpubLen [a, b]
          have hu : (('#' : Char) == 'u') = false := by decide
          simp [xpubLen, hu]
  | [a, b, c] => by
      show xpubLen (a :: b :: c :: '#' :: s) = xpubLen [a, b, c]
      have hb : (('#' : Char) == 'b') = false := by decide
      simp [xpubLen, hb]
  | a :: b :: c :: d :: rest => by
      show xpubLen (a :: b :: c :: d :: (rest ++ '#' :: s)) =
        xpubLen (a :: b :: c :: d :: rest)
      simp only [xpubLen, base58RunLen_append]

theorem bracketScan_checksum (s' : Str) (hs : ∀ c ∈ s', c ∈ checksumChars) :
    ∀ flag, bracketScan s' flag = none := by
  induction s' with
  | nil => intro flag; rfl
  | cons c cs ih =>
      intro flag
      have hc := checksumChar_facts (hs c (List.mem_cons_self c cs))
      have ihs : ∀ x ∈ cs, x ∈ checksumChars := fun x hx =>
        hs x (List.mem_cons_of_mem c hx)
      show bracketScan (c :: cs) flag = none
      rw [bracketScan]
      rw [if_neg hc.1]
      have hne : (decide (c = ']') && flag) = false := by
        rw [decide_eq_false hc.2.1]; rfl
      rw [if_neg (by simp [hne])]
      rw [ih ihs true]
      rfl

theorem bracketScan_append (s : Str) (hs : ∀ c ∈ s, c ∈ checksumChars) :
    ∀ (u : Str) (flag : Bool),
      bracketScan (u ++ '#' :: s) flag = bracketScan u flag := by
  intro u
  induction u with
  | nil =>
      intro flag
      show bracketScan ('#' :: s) flag = none
      rw [bracketScan]
      rw [if_neg (by decide)]
      have hne : (decide (('#' : Char) = ']') && flag) = false := by
        rw [decide_eq_false (by decide)]; rfl
      rw [if_neg (by simp [hne])]
      rw [bracketScan_checksum s hs true]
      rfl
  | cons c cs ih =>
      intro flag
      show bracketScan (c :: (cs ++ '#' :: s)) flag = bracketScan (c :: cs) flag
      rw [bracketScan, bracketScan]
      by_cases hnl : c = '\n'
      · rw [if_pos hnl, if_pos hnl]
      · rw [if_neg hnl, if_neg hnl]
        by_cases hcl : (decide (c = ']') && flag) = true
        · rw [if_pos hcl, if_pos hcl, xpubLen_append s cs]
          cases xpubLen cs with
          | some m => rfl
          | none => rw [ih true]
        · rw [if_neg hcl, if_neg hcl, ih true]

theorem matchLenAt_append (s : Str) (hs : ∀ c ∈ s, c ∈ checksumChars) :
    ∀ u : Str, matchLenAt (u ++ '#' :: s) = matchLenAt u := by
  intro u
  cases u with
  | nil =>
      show matchLenAt ('#' :: s) = none
      rw [matchLenAt]
      rw [if_neg (by decide)]
      exact xpubLen_append s []
  | cons c cs =>
      show matchLenAt (c :: (cs ++ '#' :: s)) = matchLenAt (c :: cs)
      rw [matchLenAt, matchLenAt]
      by_cases hbr : c = '['
      · rw [if_pos hbr, if_pos hbr, bracketScan_append s hs cs false]
        cases bracketScan cs false with
        | some m => rfl
        | none =>
            show xpubLen ((c :: cs) ++ '#' :: s) = xpubLen (c :: cs)
            exact xpubLen_append s (c :: cs)
      · rw [if_neg hbr, if_neg hbr]
        exact xpubLen_append s (c :: cs)

theorem base58RunLen_le : ∀ u : Str, base58RunLen u ≤ u.length := by
  intro u
  induction u with
  | nil => simp [base58RunLen]
  | cons c cs ih =>
      rw [base58RunLen]
      by_cases h : isBase58 c = true
      · rw [if_pos h]; simpa using ih
      · rw [if_neg h]; simp

theorem xpubLen_bound {u : Str} {n : Nat} (h : xpubLen u = some n) :
    1 ≤ n ∧ n ≤ u.length := by
  match u with
  | [] => exact absurd h (by simp [xpubLen])
  | [a] => exact absurd h (by simp [xpubLen])
  | [a, b] => exact absurd h (by simp [xpubLen])
  | [a, b, c] => exact absurd h (by simp [xpubLen])
  | a :: b :: c :: d :: rest =>
      rw [xpubLen] at h
      by_cases hg : (isXpubVersion a && (b == 'p') && (c == 'u') && (d == 'b')) = true
      · rw [if_pos hg] at h
        by_cases hr : 79 ≤ base58RunLen rest
        · rw [if_pos hr] at h
          have hn := Option.some.inj h
          have hle := base58RunLen_le rest
          subst hn
          constructor
          · omega
          · simp only [List.length_cons]
            have : min (base58RunLen rest) 108 ≤ base58RunLen rest :=
              Nat.min_le_left _ _
            omega
        · rw [if_neg hr] at h; exact absurd h (by simp)
      · rw [if_neg hg] at h; exact absurd h (by simp)

theorem bracketScan_bound :
    ∀ (u : Str) (flag : Bool) (m : Nat), bracketScan u flag = some m →
      1 ≤ m ∧ m ≤ u.length := by
  intro u
  induction u with
  | nil => intro flag m h; exact absurd h (by simp [bracketScan])
  | cons c cs ih =>
      intro flag m h
      rw [bracketScan] at h
      by_cases hnl : c = '\n'
      · rw [if_pos hnl] at h; exact absurd h (by simp)
      · rw [if_neg hnl] at h
        by_cases hcl : (decide (c = ']') && flag) = true
        · rw [if_pos hcl] at h
          cases hx : xpubLen cs with
          | some k =>
              rw [hx] at h
              have hm := Option.some.inj h
              have hb := xpubLen_bound hx
              subst hm
              simp only [List.length_cons]
              omega
          | none =>
              rw [hx] at h
              rcases Option.map_eq_some'.mp h with ⟨m0, hm0, hm⟩
              have := ih true m0 hm0
              subst hm
              simp only [List.length_cons]
              omega
        · rw [if_neg hcl] at h
          rcases Option.map_eq_some'.mp h with ⟨m0, hm0, hm⟩
          have := ih true m0 hm0
          subst hm
          simp only [List.length_cons]
          omega

theorem matchLenAt_bound {u : Str} {n : Nat} (h : matchLenAt u = some n) :
    1 ≤ n ∧ n ≤ u.length := by
  cases u with
  | nil => exact absurd h (by simp [matchLenAt])
  | cons c cs =>
      rw [matchLenAt] at h
      by_cases hbr : c = '['
      · rw [if_pos hbr] at h
        cases hb : bracketScan cs false with
        | some m =>
            rw [hb] at h
            have hm := Option.some.inj h
            have := bracketScan_bound cs false m hb
            subst hm
            simp only [List.length_cons]
            omega
        | none => rw [hb] at h; exact xpubLen_bound h
      · rw [if_neg hbr] at h; exact xpubLen_bound h

theorem xpubLen_mem_b {u : Str} {n : Nat} (h : xpubLen u = some n) :
    'b' ∈ u.take n := by
  match u with
  | [] => exact absurd h (by simp [xpubLen])
  | [a] => exact absurd h (by simp [xpubLen])
  | [a, b] => exact absurd h (by simp [xpubLen])
  | [a, b, c] => exact absurd h (by simp [xpubLen])
  | a :: b :: c :: d :: rest =>
      rw [xpubLen] at h
      by_cases hg : (isXpubVersion a && (b == 'p') && (c == 'u') && (d == 'b')) = true
      · have hd : d = 'b' := by
          have := (Bool.and_eq_true _ _).mp hg
          exact eq_of_beq this.2
        rw [if_pos hg] at h
        by_cases hr : 79 ≤ base58RunLen rest
        · rw [if_pos hr] at h
          have hn := Option.some.inj h
          subst hn; subst hd
          show 'b' ∈ (a :: b :: c :: 'b' :: rest).take (4 + min (base58RunLen rest) 108)
          have : (4 + min (base58RunLen rest) 108) = ((min (base58RunLen rest) 108) + 1) + 1 + 1 + 1 := by omega
          rw [this]
          simp [List.take]
        · rw [if_neg hr] at h; exact absurd h (by simp)
      · rw [if_neg hg] at h; exact absurd h (by simp)

theorem bracketScan_mem_b :
    ∀ (u : Str) (flag : Bool) (m : Nat), bracketScan u flag = some m →
      'b' ∈ u.take m := by
  intro u
  induction u with
  | nil => intro flag m h; exact absurd h (by simp [bracketScan])
  | cons c cs ih =>
      intro flag m h
      rw [bracketScan] at h
      by_cases hnl : c = '\n'
      · rw [if_pos hnl] at h; exact absurd h (by simp)
      · rw [if_neg hnl] at h
        by_cases hcl : (decide (c = ']') && flag) = true
        · rw [if_pos hcl] at h
          cases hx : xpubLen cs with
          | some k =>
              rw [hx] at h
              have hm := Option.some.inj h
              subst hm
              have hb := xpubLen_mem_b hx
              show 'b' ∈ (c :: cs).take (1 + k)
              rw [Nat.add_comm 1 k, List.take_succ_cons]
              exact List.mem_cons_of_mem c hb
          | none =>
              rw [hx] at h
              rcases Option.map_eq_some'.mp h with ⟨m0, hm0, hm⟩
              subst hm
              have hb := ih true m0 hm0
              rw [List.take_succ_cons]
              exact List.mem_cons_of_mem c hb
        · rw [if_neg hcl] at h
          rcases Option.map_eq_some'.mp h with ⟨m0, hm0, hm⟩
          subst hm
          have hb := ih true m0 hm0
          rw [List.take_succ_cons]
          exact List.mem_cons_of_mem c hb

theorem matchLenAt_mem_b {u : Str} {n : Nat} (h : matchLenAt u = some n) :
    'b' ∈ u.take n := by
  cases u with
  | nil => exact absurd h (by simp [matchLenAt])
  | cons c cs =>
      rw [matchLenAt] at h
      by_cases hbr : c = '['
      · rw [if_pos hbr] at h
        cases hb : bracketScan cs false with
        | some m =>
            rw [hb] at h
            have hm := Option.some.inj h
            subst hm
            have := bracketScan_mem_b cs false m hb
            rw [List.take_succ_cons]
            exact List.mem_cons_of_mem c this
        | none => rw [hb] at h; exact xpubLen_mem_b h
      · rw [if_neg hbr] at h; exact xpubLen_mem_b h

theorem scanAux_skip (c : Char) (cs : Str) (k : Nat) :
    scanAux (c :: cs) (k + 1) = scanAux cs k := rfl

theorem scanAux_zero (c : Char) (cs : Str) :
    scanAux (c :: cs) 0 =
      match matchLenAt (c :: cs) with
      | some n => (c :: cs).take n :: scanAux cs (n - 1)
      | none => scanAux cs 0 := rfl

theorem xpubLen_checksum :
    ∀ u : Str, (∀ c ∈ u, c ∈ checksumChars) → xpubLen u = none := by
  intro u hu
  match u with
  | [] => rfl
  | [a] => rfl
  | [a, b] => rfl
  | [a, b, c] => rfl
  | a :: b :: c :: d :: rest =>
      have hd : d ∈ (a :: b :: c :: d :: rest) := by simp
      have hdb : d ≠ 'b' := (checksumChar_facts (hu d hd)).2.2.2.1
      rw [xpubLen]
      rw [if_neg]
      intro hg
      have := (Bool.and_eq_true _ _).mp hg
      exact hdb (eq_of_beq this.2)

theorem scanAux_checksum :
    ∀ (u : Str), (∀ c ∈ u, c ∈ checksumChars) → ∀ k, scanAux u k = [] := by
  intro u
  induction u with
  | nil => intro _ k; rfl
  | cons c cs ih =>
      intro hu k
      have hc := checksumChar_facts (hu c (List.mem_cons_self c cs))
      have ihs : ∀ x ∈ cs, x ∈ checksumChars := fun x hx =>
        hu x (List.mem_cons_of_mem c hx)
      cases k with
      | succ k' => rw [scanAux_skip]; exact ih ihs k'
      | zero =>
          rw [scanAux_zero]
          have hm : matchLenAt (c :: cs) = none := by
            rw [matchLenAt]
            rw [if_neg hc.2.2.1]
            exact xpubLen_checksum (c :: cs) hu
          rw [hm]
          exact ih ihs 0

theorem scanAux_append (s : Str) (hs : ∀ c ∈ s, c ∈ checksumChars) :
    ∀ (u : Str) (k : Nat), scanAux (u ++ '#' :: s) k = scanAux u k := by
  intro u
  induction u with
  | nil =>
      intro k
      show scanAux ('#' :: s) k = []
      cases k with
      | succ k' => rw [scanAux_skip]; exact scanAux_checksum s hs k'
      | zero =>
          rw [scanAux_zero]
          have hm : matchLenAt ('#' :: s) = none := matchLenAt_append s hs []
          rw [hm]
          exact scanAux_checksum s hs 0
  | cons c cs ih =>
      intro k
      show scanAux (c :: (cs ++ '#' :: s)) k = scanAux (c :: cs) k
      cases k with
      | succ k' => rw [scanAux_skip, scanAux_skip]; exact ih k'
      | zero =>
          rw [scanAux_zero, scanAux_zero]
          have hm : matchLenAt (c :: (cs ++ '#' :: s)) = matchLenAt (c :: cs) :=
            matchLenAt_append s hs (c :: cs)
          rw [hm]
          cases hma : matchLenAt (c :: cs) with
          | none => exact ih 0
          | some n =>
              have hb := matchLenAt_bound hma
              have htake : ((c :: cs) ++ '#' :: s).take n = (c :: cs).take n :=
                List.take_append_of_le_length hb.2
              show ((c :: cs) ++ '#' :: s).take n :: scanAux (cs ++ '#' :: s) (n - 1)
                  = (c :: cs).take n :: scanAux cs (n - 1)
              rw [htake, ih (n - 1)]

theorem scanAux_subset :
    ∀ (u : Str) (k : Nat) (cap : Str), cap ∈ scanAux u k → ∀ x ∈ cap, x ∈ u := by
  intro u
  induction u with
  | nil => intro k cap hcap; exact absurd hcap (by simp [scanAux])
  | cons c cs ih =>
      intro k cap hcap x hx
      cases k with
      | succ k' =>
          rw [scanAux_skip] at hcap
          exact List.mem_cons_of_mem c (ih k' cap hcap x hx)
      | zero =>
          rw [scanAux_zero] at hcap
          cases hma : matchLenAt (c :: cs) with
          | none =>
              rw [hma] at hcap
              exact List.mem_cons_of_mem c (ih 0 cap hcap x hx)
          | some n =>
              rw [hma] at hcap
              rcases List.mem_cons.mp hcap with hcap | hcap
              · subst hcap
                exact List.take_subset n (c :: cs) hx
              · exact List.mem_cons_of_mem c (ih (n - 1) cap hcap x hx)

theorem scanAux_mem_b :
    ∀ (u : Str) (k : Nat) (cap : Str), cap ∈ scanAux u k → 'b' ∈ cap := by
  intro u
  induction u with
  | nil => intro k cap hcap; exact absurd hcap (by simp [scanAux])
  | cons c cs ih =>
      intro k cap hcap
      cases k with
      | succ k' => rw [scanAux_skip] at hcap; exact ih k' cap hcap
      | zero =>
          rw [scanAux_zero] at hcap
          cases hma : matchLenAt (c :: cs) with
          | none => rw [hma] at hcap; exact ih 0 cap hcap
          | some n =>
              rw [hma] at hcap
              rcases List.mem_cons.mp hcap with hcap | hcap
              · subst hcap; exact matchLenAt_mem_b hma
              · exact ih (n - 1) cap hcap

theorem isPrefixOf_mem :
    ∀ (p u : Str), p.isPrefixOf u = true → ∀ x ∈ p, x ∈ u := by
  intro p
  induction p with
  | nil => intro u _ x hx; exact absurd hx (by simp)
  | cons a p' ih =>
      intro u h x hx
      cases u with
      | nil => exact absurd h (by simp [List.isPrefixOf])
      | cons c u' =>
          rw [List.isPrefixOf, Bool.and_eq_true] at h
          rcases List.mem_cons.mp hx with hx | hx
          · subst hx
            rw [eq_of_beq h.1]
            exact List.mem_cons_self c u'
          · exact List.mem_cons_of_mem c (ih u' h.2 x hx)

theorem isPrefixOf_append_right :
    ∀ (p u w : Str), p.isPrefixOf u = true → p.isPrefixOf (u ++ w) = true := by
  intro p
  induction p with
  | nil => intro u w _; simp [List.isPrefixOf]
  | cons a p' ih =>
      intro u w h
      cases u with
      | nil => exact absurd h (by simp [List.isPrefixOf])
      | cons c u' =>
          rw [List.isPrefixOf, Bool.and_eq_true] at h
          show (a :: p').isPrefixOf (c :: (u' ++ w)) = true
          rw [List.isPrefixOf, Bool.and_eq_true]
          exact ⟨h.1, ih u' w h.2⟩

theorem isPrefixOf_boundary (s : Str) :
    ∀ (p u : Str), p.isPrefixOf (u ++ '#' :: s) = true → '#' ∉ p →
      p.isPrefixOf u = true ∧ p.length ≤ u.length := by
  intro p
  induction p with
  | nil => intro u _ _; simp [List.isPrefixOf]
  | cons a p' ih =>
      intro u h hp
      cases u with
      | nil =>
          rw [List.nil_append, List.isPrefixOf, Bool.and_eq_true] at h
          have ha : a = '#' := eq_of_beq h.1
          exact absurd (ha ▸ List.mem_cons_self a p') hp
      | cons c u' =>
          rw [List.cons_append, List.isPrefixOf, Bool.and_eq_true] at h
          have hp' : '#' ∉ p' := fun hmem => hp (List.mem_cons_of_mem a hmem)
          have := ih u' h.2 hp'
          constructor
          · rw [List.isPrefixOf, Bool.and_eq_true]
            exact ⟨h.1, this.1⟩
          · simp only [List.length_cons]
            omega

theorem replaceAux_cons_zero (pat rep : Str) (c : Char) (cs : Str) :
    replaceAux pat rep (c :: cs) 0 =
      if pat.isPrefixOf (c :: cs) && !pat.isEmpty then
        rep ++ replaceAux pat rep cs (pat.length - 1)
      else c :: replaceAux pat rep cs 0 := rfl

theorem replaceAux_skip (pat rep : Str) (c : Char) (cs : Str) (k : Nat) :
    replaceAux pat rep (c :: cs) (k + 1) = replaceAux pat rep cs k := rfl

theorem replaceAux_checksum_id (pat rep : Str) (hb : 'b' ∈ pat) :
    ∀ u : Str, (∀ c ∈ u, c ∈ checksumChars) → replaceAux pat rep u 0 = u := by
  intro u
  induction u with
  | nil => intro _; rfl
  | cons c cs ih =>
      intro hu
      have ihs : ∀ x ∈ cs, x ∈ checksumChars := fun x hx =>
        hu x (List.mem_cons_of_mem c hx)
      rw [replaceAux_cons_zero]
      have hpre : pat.isPrefixOf (c :: cs) = false := by
        by_contra hcon
        have hpre' : pat.isPrefixOf (c :: cs) = true := by
          cases hx : pat.isPrefixOf (c :: cs) with
          | true => rfl
          | false => exact absurd hx hcon
        have hbmem : 'b' ∈ c :: cs := isPrefixOf_mem pat (c :: cs) hpre' 'b' hb
        rcases List.mem_cons.mp hbmem with hbc | hbc
        · exact (checksumChar_facts (hu c (List.mem_cons_self c cs))).2.2.2.1 hbc.symm
        · exact (checksumChar_facts (hu 'b' (List.mem_cons_of_mem c hbc))).2.2.2.1 rfl
      rw [hpre]
      show c :: replaceAux pat rep cs 0 = c :: cs
      rw [ih ihs]

theorem replaceAux_append (s : Str) (hs : ∀ c ∈ s, c ∈ checksumChars)
    (pat rep : Str) (hb : 'b' ∈ pat) (hph : '#' ∉ pat) :
    ∀ (t : Str) (k : Nat), k ≤ t.length → '#' ∉ t →
      replaceAux pat rep (t ++ '#' :: s) k = replaceAux pat rep t k ++ '#' :: s := by
  intro t
  induction t with
  | nil =>
      intro k hk _
      have hk0 : k = 0 := Nat.le_zero.mp hk
      subst hk0
      show replaceAux pat rep ('#' :: s) 0 = '#' :: s
      rw [replaceAux_cons_zero]
      have hpre : pat.isPrefixOf ('#' :: s) = false := by
        cases hp : pat with
        | nil => exact absurd (hp ▸ hb) (by simp)
        | cons a p' =>
            subst hp
            show ((a :: p').isPrefixOf ('#' :: s)) = false
            rw [List.isPrefixOf]
            by_cases ha : a = '#'
            · exact absurd (ha ▸ List.mem_cons_self a p') hph
            · rw [beq_eq_false_iff_ne.mpr ha]; rfl
      rw [hpre]
      show '#' :: replaceAux pat rep s 0 = '#' :: s
      rw [replaceAux_checksum_id pat rep hb s hs]
  | cons c cs ih =>
      intro k hk hh
      have hhc : '#' ∉ cs := fun hmem => hh (List.mem_cons_of_mem c hmem)
      cases k with
      | succ k' =>
          show replaceAux pat rep (c :: (cs ++ '#' :: s)) (k' + 1) =
            replaceAux pat rep (c :: cs) (k' + 1) ++ '#' :: s
          rw [replaceAux_skip, replaceAux_skip]
          exact ih k' (by simpa using hk) hhc
      | zero =>
          show replaceAux pat rep (c :: (cs ++ '#' :: s)) 0 =
            replaceAux pat rep (c :: cs) 0 ++ '#' :: s
          rw [replaceAux_cons_zero, replaceAux_cons_zero]
          by_cases hpre : pat.isPrefixOf (c :: (cs ++ '#' :: s)) = true
          · have hbd := isPrefixOf_boundary s pat (c :: cs)
              (by simpa using hpre) hph
            have hne : pat.isEmpty = false := by
              cases hp : pat with
              | nil => exact absurd (hp ▸ hb) (by simp)
              | cons a p' => rfl
            rw [hpre, hbd.1, hne]
            show rep ++ replaceAux pat rep (cs ++ '#' :: s) (pat.length - 1) =
              (rep ++ replaceAux pat rep cs (pat.length - 1)) ++ '#' :: s
            rw [ih (pat.length - 1) (by simp at hbd; omega) hhc,
              List.append_assoc]
          · have hpre' : pat.isPrefixOf (c :: (cs ++ '#' :: s)) = false := by
              cases hx : pat.isPrefixOf (c :: (cs ++ '#' :: s)) with
              | true => exact absurd hx hpre
              | false => rfl
            have hpre2 : pat.isPrefixOf (c :: cs) = false := by
              cases hx : pat.isPrefixOf (c :: cs) with
              | false => rfl
              | true =>
                  have := isPrefixOf_append_right pat (c :: cs) ('#' :: s) hx
                  rw [List.cons_append] at this
                  exact absurd this (by rw [hpre']; simp)
            rw [hpre', hpre2]
            show c :: replaceAux pat rep (cs ++ '#' :: s) 0 =
              (c :: replaceAux pat rep cs 0) ++ '#' :: s
            rw [ih 0 (Nat.zero_le _) hhc]
            rfl

theorem digitChar_ne_hash (d : Nat) : digitChar d ≠ '#' := by
  unfold digitChar
  repeat' split
  all_goals decide

theorem natDigitsAux_no_hash : ∀ (fuel n : Nat), '#' ∉ natDigitsAux fuel n := by
  intro fuel
  induction fuel with
  | zero => intro n; simp [natDigitsAux]
  | succ f ih =>
      intro n
      cases n with
      | zero => simp [natDigitsAux]
      | succ n' =>
          show '#' ∉ natDigitsAux f ((n' + 1) / 10) ++ [digitChar ((n' + 1) % 10)]
          intro hmem
          rcases List.mem_append.mp hmem with hmem | hmem
          · exact ih ((n' + 1) / 10) hmem
          · rcases List.mem_singleton.mp hmem with h
            exact digitChar_ne_hash ((n' + 1) % 10) h.symm

theorem placeholder_no_hash (i : Nat) : '#' ∉ placeholder i := by
  intro hmem
  rcases List.mem_cons.mp hmem with h | h
  · exact absurd h (by decide)
  · unfold natToStr at h
    by_cases hi : i = 0
    · rw [if_pos hi] at h
      exact absurd (List.mem_singleton.mp h) (by decide)
    · rw [if_neg hi] at h
      exact natDigitsAux_no_hash (i + 1) i h

theorem replaceAux_no_hash (pat rep : Str) (hrep : '#' ∉ rep) :
    ∀ (t : Str) (k : Nat), '#' ∉ t → '#' ∉ replaceAux pat rep t k := by
  intro t
  induction t with
  | nil => intro k _; simp [replaceAux]
  | cons c cs ih =>
      intro k hh
      have hhc : '#' ∉ cs := fun hmem => hh (List.mem_cons_of_mem c hmem)
      cases k with
      | succ k' => rw [replaceAux_skip]; exact ih k' hhc
      | zero =>
          rw [replaceAux_cons_zero]
          by_cases hcond : (pat.isPrefixOf (c :: cs) && !pat.isEmpty) = true
          · rw [if_pos hcond]
            intro hmem
            rcases List.mem_append.mp hmem with hmem | hmem
            · exact hrep hmem
            · exact ih (pat.length - 1) hhc hmem
          · rw [if_neg hcond]
            intro hmem
            rcases List.mem_cons.mp hmem with h | h
            · exact hh (h ▸ List.mem_cons_self c cs)
            · exact ih 0 hhc h

theorem extractLoop_cons (f : XpubFromStr) (i : Nat) (cap : Str)
    (caps : List Str) (templ : Str) (keys : List KeyOriginInfo) :
    extractLoop f i (cap :: caps) templ keys =
      match parseCapture f cap with
      | .error e => .error e
      | .ok pubkey =>
          extractLoop f (i + 1) caps (replaceAll templ cap (placeholder i))
            (if keys.contains pubkey then keys else keys ++ [pubkey]) := rfl

theorem extractLoop_no_hash (f : XpubFromStr) :
    ∀ (caps : List Str) (i : Nat) (templ : Str) (keys : List KeyOriginInfo)
      (t : Str) (k : List KeyOriginInfo), '#' ∉ templ →
      extractLoop f i caps templ keys = .ok (t, k) → '#' ∉ t := by
  intro caps
  induction caps with
  | nil =>
      intro i templ keys t k hh hres
      have := Except.ok.inj hres
      have ht : templ = t := congrArg Prod.fst this
      exact ht ▸ hh
  | cons cap caps ih =>
      intro i templ keys t k hh hres
      rw [extractLoop_cons] at hres
      cases hp : parseCapture f cap with
      | error e => rw [hp] at hres; exact absurd hres (by simp)
      | ok pubkey =>
          rw [hp] at hres
          exact ih (i + 1) (replaceAll templ cap (placeholder i)) _ t k
            (replaceAux_no_hash cap (placeholder i) (placeholder_no_hash i)
              templ 0 hh) hres

theorem extractLoop_append (s : Str) (hs : ∀ c ∈ s, c ∈ checksumChars)
    (f : XpubFromStr) :
    ∀ (caps : List Str) (i : Nat) (templ : Str) (keys : List KeyOriginInfo),
      (∀ cap ∈ caps, '#' ∉ cap ∧ 'b' ∈ cap) → '#' ∉ templ →
      extractLoop f i caps (templ ++ '#' :: s) keys =
        (extractLoop f i caps templ keys).map
          (fun r => (r.1 ++ '#' :: s, r.2)) := by
  intro caps
  induction caps with
  | nil => intro i templ keys _ _; rfl
  | cons cap caps ih =>
      intro i templ keys hcaps hh
      have hcap := hcaps cap (List.mem_cons_self cap caps)
      have hcaps' : ∀ c ∈ caps, '#' ∉ c ∧ 'b' ∈ c := fun c hc =>
        hcaps c (List.mem_cons_of_mem cap hc)
      rw [extractLoop_cons, extractLoop_cons]
      cases hp : parseCapture f cap with
      | error e => rfl
      | ok pubkey =>
          have hrepl : replaceAll (templ ++ '#' :: s) cap (placeholder i) =
              replaceAll templ cap (placeholder i) ++ '#' :: s :=
            replaceAux_append s hs cap (placeholder i) hcap.2 hcap.1 templ 0
              (Nat.zero_le _) hh
          rw [hrepl]
          exact ih (i + 1) (replaceAll templ cap (placeholder i)) _ hcaps'
            (replaceAux_no_hash cap (placeholder i) (placeholder_no_hash i)
              templ 0 hh)

theorem rsplitOnce_cons (c x : Char) (xs : Str) :
    rsplitOnce c (x :: xs) =
      match rsplitOnce c xs with
      | some (a, b) => some (x :: a, b)
      | none => if x = c then some ([], xs) else none := rfl

theorem rsplitOnce_no_hash : ∀ t : Str, '#' ∉ t → rsplitOnce '#' t = none := by
  intro t
  induction t with
  | nil => intro _; rfl
  | cons x xs ih =>
      intro hh
      have hhx : '#' ∉ xs := fun hmem => hh (List.mem_cons_of_mem x hmem)
      rw [rsplitOnce_cons, ih hhx]
      rw [if_neg (fun e : x = '#' => hh (List.mem_cons.mpr (Or.inl e.symm)))]

theorem rsplitOnce_boundary (bb : Str) (hbb : '#' ∉ bb) :
    ∀ a : Str, '#' ∉ a → rsplitOnce '#' (a ++ '#' :: bb) = some (a, bb) := by
  intro a
  induction a with
  | nil =>
      intro _
      show rsplitOnce '#' ('#' :: bb) = some ([], bb)
      rw [rsplitOnce_cons, rsplitOnce_no_hash bb hbb, if_pos rfl]
  | cons x xs ih =>
      intro hh
      have hhx : '#' ∉ xs := fun hmem => hh (List.mem_cons_of_mem x hmem)
      show rsplitOnce '#' (x :: (xs ++ '#' :: bb)) = some (x :: xs, bb)
      rw [rsplitOnce_cons, ih hhx]

/-- C9: stripping from the last `#` makes the checksum inert — for every
descriptor body `B` (a text with no `#`) and every checksum suffix (a string
over the descriptor-checksum alphabet), parsing `B` and parsing
`B#<suffix>` produce the same script config (same template, same key list,
or the very same error), for every behaviour of the external key decoder. -/
theorem c9_checksum_stripping (fromStr : XpubFromStr) (B s : Str)
    (hB : '#' ∉ B) (hs : ∀ c ∈ s, c ∈ checksumChars) :
    extract_script_config_policy fromStr (B ++ '#' :: s) =
      extract_script_config_policy fromStr B := by
  have hsh : '#' ∉ s := fun hmem =>
    (checksumChar_facts (hs '#' hmem)).2.2.2.2 rfl
  have hscan : scanCaptures (B ++ '#' :: s) = scanCaptures B :=
    scanAux_append s hs B 0
  have hcaps : ∀ cap ∈ scanCaptures B, '#' ∉ cap ∧ 'b' ∈ cap := by
    intro cap hcap
    exact ⟨fun hmem => hB (scanAux_subset B 0 cap hcap '#' hmem),
      scanAux_mem_b B 0 cap hcap⟩
  unfold extract_script_config_policy
  rw [hscan, extractLoop_append s hs fromStr (scanCaptures B) 0 B [] hcaps hB]
  cases hres : extractLoop fromStr 0 (scanCaptures B) B [] with
  | error e => rfl
  | ok tk =>
      obtain ⟨t, keys⟩ := tk
      have ht : '#' ∉ t :=
        extractLoop_no_hash fromStr (scanCaptures B) 0 B [] t keys hB hres
      simp only [Except.map]
      rw [rsplitOnce_boundary s hsh t ht, rsplitOnce_no_hash t ht]

/-- A descriptor body with one key expression and no checksum. -/
def c9body : String := "wsh(pk([aaaa0000]" ++ xpubLit ++ "))"

/-- An eight-character checksum suffix over the checksum alphabet. -/
def c9suffix : String := "tjg09x8f"

set_option maxRecDepth 8000 in
set_option maxHeartbeats 1000000 in
theorem c9_checksum_stripping_witness :
    ('#' ∉ strL c9body) ∧ (∀ c ∈ strL c9suffix, c ∈ checksumChars) ∧
      extract_script_config_policy fromStrCex
          (strL c9body ++ '#' :: strL c9suffix) =
        extract_script_config_policy fromStrCex (strL c9body) :=
  ⟨by decide, by decide,
   c9_checksum_stripping fromStrCex (strL c9body) (strL c9suffix)
     (by decide) (by decide)⟩
